import Mathlib

/-!
# Verification of the InstaScribe bulk transcription queue

This file gives a shallow embedding, in Lean 4, of the bulk job queue
processor of the InstaScribe repository (the bulk transcription module,
the Whisper helper functions `handleApiError` / `generateSRT` /
`formatSRTTime`, the URL cleaning of `flux.js`, and the `Settings`
public API of `tabs.js`), together with theorems settling the frozen
claims about the natural-language specification.

JavaScript strings are modelled as Lean `String`, with the character
level operations (`split`, `trim`, `includes`, `padStart`) implemented
explicitly over `String.data` so that their behaviour matches the
JavaScript semantics and is amenable to induction.  Floating point
second values taken by the subtitle formatter are modelled as exact
rationals (`Rat`); the arithmetic performed by the source
(`Math.floor`, `%`, `/`) is exact on all values of interest, so no
rounding behaviour is lost by this choice.
-/

/-! ## Character-level string helpers (JavaScript semantics) -/

/-- JavaScript `s.split(c)` on a single-character separator, at the level
of character lists.  Splits at every occurrence of `c`, keeping empty
pieces, and yields `[[]]` on the empty string, exactly like JavaScript
`''.split(c)` yields `['']`. -/
def splitOnChar (c : Char) : List Char → List (List Char)
  | [] => [[]]
  | x :: xs =>
    match splitOnChar c xs with
    | [] => [[x]]
    | p :: ps => if x = c then [] :: p :: ps else (x :: p) :: ps

/-- JavaScript `Array.prototype.join` with a fixed separator, at the
level of character lists. -/
def joinWith (sep : List Char) : List (List Char) → List Char
  | [] => []
  | [p] => p
  | p :: q :: ps => p ++ sep ++ joinWith sep (q :: ps)

/-- Whitespace test used to model JavaScript `String.prototype.trim`
(the inputs of interest contain only ASCII whitespace). -/
def isWsChar (c : Char) : Bool := c = ' ' || c = '\t' || c = '\n' || c = '\r'

/-- JavaScript `s.trim()` on character lists: drop whitespace from both
ends. -/
def trimChars (l : List Char) : List Char :=
  ((l.dropWhile isWsChar).reverse.dropWhile isWsChar).reverse

/-- Does `needle` occur as a prefix of `hay`?  Helper for `includes`. -/
def startsWithChars : List Char → List Char → Bool
  | [], _ => true
  | _ :: _, [] => false
  | n :: ns, h :: hs => n = h && startsWithChars ns hs

/-- JavaScript `hay.includes(needle)`: substring containment. -/
def containsSubstringChars (needle : List Char) : List Char → Bool
  | [] => startsWithChars needle []
  | c :: rest => startsWithChars needle (c :: rest) || containsSubstringChars needle rest

/-- JavaScript `s.split('\n')` as a `String` operation. -/
def jsSplitLines (s : String) : List String :=
  (splitOnChar '\n' s.data).map String.mk

/-- JavaScript `s.trim()` as a `String` operation. -/
def jsTrim (s : String) : String := String.mk (trimChars s.data)

/-- JavaScript `s.includes(needle)` as a `String` operation. -/
def jsIncludes (needle s : String) : Bool := containsSubstringChars needle.data s.data

/-- Does the string contain a question mark?  (Used to state the URL
normalization claims.) -/
def hasQuery (s : String) : Bool := s.data.any (fun ch => ch = '?')

/-! ## URL cleaning (`flux.js` and the bulk input handler) -/

/-- From `flux.js`: `cleanInstagramUrl(url)` — `if (!url) return url;
return url.split('?')[0];`.  Taking the head of `split('?')` is the
longest prefix free of `'?'`, i.e. `takeWhile (· ≠ '?')`. -/
def cleanInstagramUrl (url : String) : String :=
  if url = "" then url
  else String.mk (url.data.takeWhile (fun ch => ch ≠ '?'))

/-- One line of the bulk textarea input cleaner (the `input` event
listener of the bulk module): `const trimmed = line.trim(); return
trimmed ? trimmed.split('?')[0] : trimmed;`. -/
def cleanLine (l : List Char) : List Char :=
  if trimChars l = [] then trimChars l
  else (trimChars l).takeWhile (fun ch => ch ≠ '?')

/-- The bulk textarea `input` event listener: split the textarea value
into lines, clean every line, and join the lines back with `'\n'`. -/
def cleanBulkInput (s : String) : String :=
  String.mk (joinWith ['\n'] ((splitOnChar '\n' s.data).map cleanLine))

/-! ## Parsing the bulk URL list (`handleProcessBulk`) -/

/-- From `handleProcessBulk`: `bulkUrlsInput.value.split('\n').map(url =>
url.trim()).filter(url => url && url.includes('instagram.com'))`. -/
def parseUrls (input : String) : List String :=
  ((jsSplitLines input).map jsTrim).filter
    (fun u => u ≠ "" && jsIncludes ("instagram.com") u)


/-! ## Subtitle formatting (`whisper.js`: `generateSRT`, `formatSRTTime`, `pad`) -/

/-- A Whisper segment: `{start, end, text}`.  The `end` field of the
source is called `stop` here because `end` is reserved in Lean.  The
floating-point second values are modelled as exact rationals. -/
structure Segment where
  start : Rat
  stop : Rat
  text : String
deriving DecidableEq

/-- JavaScript `Math.trunc`-style truncation of a rational (used to model
the `%` remainder operator, whose result carries the dividend's sign). -/
def jsTrunc (q : Rat) : Int := if q < 0 then -((-q).floor) else q.floor

/-- JavaScript `a % b`: `a - b * trunc(a / b)`. -/
def jsMod (a b : Rat) : Rat := a - b * (jsTrunc (a / b) : Int)

/-- From `whisper.js`: `pad(num, length)` is
`String(num).padStart(length, '0')`. -/
def pad (num : Int) (length : Nat) : String :=
  let s := toString num
  String.mk (List.replicate (length - s.length) '0') ++ s

/-- From `whisper.js`: `formatSRTTime(seconds)` renders `HH:MM:SS,mmm`
using `Math.floor` and `%` on the seconds value. -/
def formatSRTTime (seconds : Rat) : String :=
  let hours := (seconds / 3600).floor
  let minutes := ((jsMod seconds 3600) / 60).floor
  let secs := (jsMod seconds 60).floor
  let ms := ((jsMod seconds 1) * 1000).floor
  pad hours 2 ++ ":" ++ pad minutes 2 ++ ":" ++ pad secs 2 ++ "," ++ pad ms 3

/-- One SRT block as appended by the `forEach` body of `generateSRT`
for the segment at 0-based position `idx`. -/
def srtBlock (idx : Nat) (seg : Segment) : String :=
  toString (idx + 1) ++ "\n" ++ formatSRTTime seg.start ++ " --> " ++ formatSRTTime seg.stop
    ++ "\n" ++ jsTrim seg.text ++ "\n\n"

/-- The `srt += ...` accumulation loop of `generateSRT`. -/
def srtAux : Nat → String → List Segment → String
  | _, acc, [] => acc
  | idx, acc, seg :: rest => srtAux (idx + 1) (acc ++ srtBlock idx seg) rest

/-- From `whisper.js`: `generateSRT(segments)` on a present segment
array (`segments.length === 0` yields the empty string). -/
def generateSRTList (segs : List Segment) : String :=
  if segs.length = 0 then ("") else srtAux 0 ("") segs

/-- From `whisper.js`: `generateSRT(segments)` including the `!segments`
guard; the bulk queue calls it as `generateSRT(result.segments || [])`,
so a missing segment array is modelled as `none`. -/
def generateSRT : Option (List Segment) → String
  | none => ""
  | some segs => generateSRTList segs


/-! ## Data model of the bulk queue (module-level state of the bulk module) -/

/-- Job status: the string field `status` of a queue item, one of
`'pending' | 'processing' | 'completed' | 'failed'`. -/
inductive Status where
  | pending
  | processing
  | completed
  | failed
deriving DecidableEq

/-- A completed transcript, as stored in `item.result` and pushed onto
`completedTranscripts`: `{text, srt, url, filename}`. -/
structure TResult where
  text : String
  srt : String
  url : String
  filename : String
deriving DecidableEq

/-- One queue item as built by `handleProcessBulk`:
`{id, url, status, result, error}`. -/
structure Item where
  id : Nat
  url : String
  status : Status
  result : Option TResult
  error : Option String
deriving DecidableEq

/-- The module-level mutable state of the bulk module:
`processingQueue`, `currentIndex`, `isProcessing`,
`completedTranscripts`, plus the pieces of DOM state the module writes
(`bulkResponse.innerHTML` as an optional `(cssClass, message)` pair, the
visibility of the queue and download sections, and the disabled flag of
the process button). -/
structure QState where
  processingQueue : List Item
  currentIndex : Nat
  isProcessing : Bool
  completedTranscripts : List TResult
  bulkResponse : Option (String × String)
  queueSectionVisible : Bool
  downloadSectionVisible : Bool
  buttonDisabled : Bool
deriving DecidableEq

/-- The state of the freshly initialized bulk module (empty queue,
nothing shown). -/
def initState : QState :=
  { processingQueue := []
    currentIndex := 0
    isProcessing := false
    completedTranscripts := []
    bulkResponse := none
    queueSectionVisible := false
    downloadSectionVisible := false
    buttonDisabled := false }

/-- The outcome of the per-job external work done between the two
suspension points of `processNextInQueue` (resolver fetch, video fetch,
transcription): either the whole `try` block succeeds, producing the
transcript text and the (possibly missing) segment array, or some step
throws with an error message. -/
inductive FetchOutcome where
  | success (text : String) (segments : Option (List Segment))
  | failure (msg : String)
deriving DecidableEq

/-- Generic point update of a list (models an assignment to a field of
`processingQueue[i]`). -/
def updateAt {α : Type} : List α → Nat → (α → α) → List α
  | [], _, _ => []
  | x :: xs, 0, f => f x :: xs
  | x :: xs, n + 1, f => x :: updateAt xs n f

/-- Build index `k` upward: models `Array.prototype.map`'s `(url, index)`
callback starting at offset `k`. -/
def mapIdxFrom {α β : Type} (k : Nat) (f : Nat → α → β) : List α → List β
  | [] => []
  | x :: xs => f k x :: mapIdxFrom (k + 1) f xs

/-- A fresh job as built by `handleProcessBulk`:
`{id: index, url, status: 'pending', result: null, error: null}`. -/
def mkJob (i : Nat) (url : String) : Item :=
  { id := i, url := url, status := .pending, result := none, error := none }

/-- The queue built by `handleProcessBulk` from the filtered URL list,
with ids starting at `k` (the source always starts at 0; the offset is
used in proofs). -/
def mkQueueFrom (k : Nat) (urls : List String) : List Item :=
  mapIdxFrom k mkJob urls

/-- From the bulk module: `handleProcessBulk()`.  Parses the textarea
value, rejects when no URL survives filtering, rejects when no API key
is configured (modelled by the `hasApiKey` flag), and otherwise installs
a fresh queue and shows the queue section.  The `Settings.openSettings()`
call of the key-missing branch and the initial `renderQueue()` are pure
DOM rendering and are not part of the state. -/
def handleProcessBulk (input : String) (hasApiKey : Bool) (s : QState) : QState :=
  let urls := parseUrls input
  if urls.length = 0 then
    { s with bulkResponse := some ("error", "Please enter at least one valid Instagram URL") }
  else if hasApiKey = false then
    { s with bulkResponse := some ("error", "Please configure your OpenAI API key in Settings first") }
  else
    { processingQueue := mkQueueFrom 0 urls
      currentIndex := 0
      isProcessing := true
      completedTranscripts := []
      bulkResponse := s.bulkResponse
      queueSectionVisible := true
      downloadSectionVisible := false
      buttonDisabled := true }

/-- The `currentIndex >= processingQueue.length` branch of
`processNextInQueue`: stop processing, re-enable the button, show the
summary message, and reveal the download section when at least one
transcript completed. -/
def finishBatch (s : QState) : QState :=
  { s with
    isProcessing := false
    buttonDisabled := false
    bulkResponse := some ("success",
      "Completed " ++ toString s.completedTranscripts.length ++ " of "
        ++ toString s.processingQueue.length ++ " transcriptions")
    downloadSectionVisible :=
      if 0 < s.completedTranscripts.length then true else s.downloadSectionVisible }

/-- The entry of `processNextInQueue`, up to the first `await`: either
the batch is finished, or the item at `currentIndex` is marked
`'processing'` (and the queue re-rendered) before the external calls are
issued. -/
def stepEnter (s : QState) : QState :=
  if s.processingQueue.length ≤ s.currentIndex then finishBatch s
  else
    { s with
      processingQueue :=
        updateAt s.processingQueue s.currentIndex (fun it => { it with status := .processing }) }

/-- The continuation of `processNextInQueue` after the external calls
settle: on success the captured item is marked `'completed'`, its result
(with `filename` built from `currentIndex + 1`) is stored and pushed
onto `completedTranscripts`; on failure the item is marked `'failed'`
with the error message.  In both cases `currentIndex` is incremented and
the next iteration is scheduled.  In the undisturbed sequential run the
captured item is `processingQueue[currentIndex]`. -/
def stepResume (s : QState) (o : FetchOutcome) : QState :=
  match s.processingQueue.get? s.currentIndex with
  | none => { s with currentIndex := s.currentIndex + 1 }
  | some it =>
    match o with
    | .success text segs =>
      let res : TResult :=
        { text := text, srt := generateSRT segs, url := it.url
          filename := "transcript_" ++ toString (s.currentIndex + 1) }
      { s with
        processingQueue :=
          updateAt s.processingQueue s.currentIndex
            (fun j => { j with status := .completed, result := some res })
        completedTranscripts := s.completedTranscripts ++ [res]
        currentIndex := s.currentIndex + 1 }
    | .failure msg =>
      { s with
        processingQueue :=
          updateAt s.processingQueue s.currentIndex
            (fun j => { j with status := .failed, error := some msg })
        currentIndex := s.currentIndex + 1 }

/-- The same continuation when it resumes after the batch it belongs to
was discarded (`handleClear` or a new `handleProcessBulk` replaced the
module state while the external call was in flight).  The captured
`item` is a stale object no longer present in `processingQueue`, so the
assignments to its fields are invisible in the current state; but the
pushes to `completedTranscripts`, the `currentIndex++`, and the
scheduling of the next `processNextInQueue` iteration all act on the
*current* module state, exactly as in the source. -/
def stepResumeStale (s : QState) (staleItem : Item) (o : FetchOutcome) : QState :=
  match o with
  | .success text segs =>
    let res : TResult :=
      { text := text, srt := generateSRT segs, url := staleItem.url
        filename := "transcript_" ++ toString (s.currentIndex + 1) }
    { s with
      completedTranscripts := s.completedTranscripts ++ [res]
      currentIndex := s.currentIndex + 1 }
  | .failure _ => { s with currentIndex := s.currentIndex + 1 }

/-- From the bulk module: `handleClear()` — resets every module
variable, hides both sections, clears the response area and re-enables
the process button. -/
def handleClear (_s : QState) : QState :=
  { processingQueue := []
    currentIndex := 0
    isProcessing := false
    completedTranscripts := []
    bulkResponse := none
    queueSectionVisible := false
    downloadSectionVisible := false
    buttonDisabled := false }

/-- The full sequential run of the queue from state `s`, consuming one
external outcome per remaining job; the final `processNextInQueue`
invocation (with the cursor past the end) performs the batch-finish
branch. -/
def runBatch : QState → List FetchOutcome → QState
  | s, [] => stepEnter s
  | s, o :: os => runBatch (stepResume (stepEnter s) o) os

/-- Every state reachable during the sequential run: the state at each
suspension point (while an external call is in flight, and during the
inter-job delay), ending with the batch-finish state. -/
def runTrace : QState → List FetchOutcome → List QState
  | s, [] => [s, stepEnter s]
  | s, o :: os => s :: stepEnter s :: runTrace (stepResume (stepEnter s) o) os

/-- Status of the job at position `j` (`processingQueue[j].status`). -/
def jobStatus (s : QState) (j : Nat) : Option Status :=
  (s.processingQueue.get? j).map Item.status

/-- Result of the job at position `j`, when present. -/
def jobResult (s : QState) (j : Nat) : Option TResult :=
  (s.processingQueue.get? j).bind Item.result

/-- Error message of the job at position `j`, when present. -/
def jobError (s : QState) (j : Nat) : Option String :=
  (s.processingQueue.get? j).bind Item.error

/-- The terminal status a job's external outcome determines. -/
def outcomeStatus : FetchOutcome → Status
  | .success _ _ => .completed
  | .failure _ => .failed

/-! ## The canonical shape of the queue state during a run -/

/-- The canonical state of the bulk module part-way through a batch:
`done` already-settled items, followed by the still-pending remainder of
the queue (ids continuing after `done`), with the cursor sitting on the
first pending item. -/
def batchSt (done : List Item) (urls : List String) (c : List TResult)
    (resp : Option (String × String)) (dv : Bool) : QState :=
  { processingQueue := done ++ mkQueueFrom done.length urls
    currentIndex := done.length
    isProcessing := true
    completedTranscripts := c
    bulkResponse := resp
    queueSectionVisible := true
    downloadSectionVisible := dv
    buttonDisabled := true }

/-- The result record built by the success branch of the continuation
for the job at position `k`. -/
def mkRes (k : Nat) (url text : String) (segs : Option (List Segment)) : TResult :=
  { text := text, srt := generateSRT segs, url := url
    filename := "transcript_" ++ toString (k + 1) }

/-- The settled form of the job at position `i` after its external
outcome came back. -/
def finalJob (i : Nat) (url : String) : FetchOutcome → Item
  | .success text segs =>
    { id := i, url := url, status := .completed
      result := some (mkRes i url text segs), error := none }
  | .failure msg =>
    { id := i, url := url, status := .failed, result := none, error := some msg }

/-- The settled jobs for positions `k, k+1, ...` given the URLs and
their outcomes. -/
def finalJobs (k : Nat) : List String → List FetchOutcome → List Item
  | url :: us, o :: os => finalJob k url o :: finalJobs (k + 1) us os
  | _, _ => []

/-- The contribution of one job's outcome to `completedTranscripts`. -/
def resHead (k : Nat) (url : String) : FetchOutcome → List TResult
  | .success text segs => [mkRes k url text segs]
  | .failure _ => []

/-- The transcripts pushed onto `completedTranscripts` by the jobs at
positions `k, k+1, ...`. -/
def successResults (k : Nat) : List String → List FetchOutcome → List TResult
  | url :: us, o :: os => resHead k url o ++ successResults (k + 1) us os
  | _, _ => []

/-- The status of a settled job never changes and a terminal state is
never left; the legal per-job transitions of one scheduler step. -/
def stepOk : Status → Status → Bool
  | .pending, .pending => true
  | .pending, .processing => true
  | .processing, .completed => true
  | .processing, .failed => true
  | .completed, .completed => true
  | .failed, .failed => true
  | _, _ => false

/-- Lifting `stepOk` to the possibly-absent statuses of a job slot
across one step: the slot must keep existing (or keep not existing) and
its status must make a legal transition. -/
def statusStep : Option Status → Option Status → Prop
  | none, none => True
  | some a, some b => stepOk a b = true
  | _, _ => False

/-- A predicate for the settled prefix: every item is terminal. -/
def SettledList (done : List Item) : Prop :=
  ∀ it ∈ done, it.status = .completed ∨ it.status = .failed

/-- How `completedTranscripts` may change across one step: either it is
untouched, or exactly the result of the job completing at that step is
appended to its end. -/
def completedStep (t t2 : QState) : Prop :=
  t2.completedTranscripts = t.completedTranscripts ∨
    ∃ r j, jobStatus t j = some .processing ∧ jobStatus t2 j = some .completed ∧
      jobResult t2 j = some r ∧ t2.completedTranscripts = t.completedTranscripts ++ [r]

/-- The number of successful outcomes in a prefix-independent form. -/
def countCompleted (os : List FetchOutcome) : Nat :=
  (os.filter (fun o => match o with | .success _ _ => true | .failure _ => false)).length

/-! ## The Whisper API error handler and the Settings public surface -/

/-- The names exported on `window.Settings` by `tabs.js`:
`{init, getApiKey, hasApiKey, openSettings, validateApiKey}`. -/
def settingsPublicApi : List String :=
  ["init", "getApiKey", "hasApiKey", "openSettings", "validateApiKey"]

/-- Whether `Settings.clearApiKey` is a truthy property of the public
`Settings` object — the condition guarding the credential-clearing
branch of `handleApiError` (`if (Settings && Settings.clearApiKey)`). -/
def settingsHasClearApiKey : Bool := settingsPublicApi.contains ("clearApiKey")

/-- From `whisper.js`: `handleApiError(response)`.  Takes the HTTP
status, the parsed `error.message` of the response body (when the body
parsed as JSON), and the credential store (`localStorage` slot
`openai_api_key`); returns the message of the thrown error together
with the store after the handler ran.  The 401 branch executes
`localStorage.removeItem('openai_api_key')` only when
`Settings.clearApiKey` is truthy. -/
def handleApiError (status : Nat) (parsedMsg : Option String) (store : Option String) :
    String × Option String :=
  let errorMessage := parsedMsg.getD ("Transcription failed")
  if status = 401 then
    ("Invalid API key. Please check your settings.",
      if settingsHasClearApiKey then none else store)
  else if status = 413 then
    ("Audio file is too large. Please use a shorter video.", store)
  else if status = 429 then
    ("Rate limit exceeded. Please try again in a moment.", store)
  else if status = 500 ∨ status = 503 then
    ("OpenAI service error. Please try again later.", store)
  else (errorMessage, store)

/-! ## Export operations of the bulk module -/

/-- An externally observable effect of an export operation (the export
functions of the bulk module perform no assignment to the module state,
which the embedding reflects by typing them as pure effect producers). -/
inductive Effect where
  | clipboardWrite (content : String)
  | fileDownload (name : String) (content : String)
  | message (kind : String) (msg : String)
deriving DecidableEq

/-- From the bulk module: `copyItem(index)`.  Returns early when the
item does not exist or has no result; otherwise writes the formatted
transcript to the clipboard.  (The success/failure toast raised when the
clipboard promise settles depends on that promise and is not part of
this synchronous effect list.) -/
def copyItem (s : QState) (index : Nat) : List Effect :=
  match s.processingQueue.get? index with
  | none => []
  | some it =>
    match it.result with
    | none => []
    | some r =>
      [.clipboardWrite ("=== Instagram Reel Transcript #" ++ toString (index + 1)
        ++ " ===\nURL: " ++ it.url ++ "\n\n" ++ r.text)]

/-- From the bulk module: `downloadTxt(index)`. -/
def downloadTxt (s : QState) (index : Nat) : List Effect :=
  match s.processingQueue.get? index with
  | none => []
  | some it =>
    match it.result with
    | none => []
    | some r => [.fileDownload (r.filename ++ ".txt") r.text]

/-- From the bulk module: `downloadSrt(index)` (note the additional
`!item.result.srt` guard: an empty SRT string is falsy). -/
def downloadSrt (s : QState) (index : Nat) : List Effect :=
  match s.processingQueue.get? index with
  | none => []
  | some it =>
    match it.result with
    | none => []
    | some r => if r.srt = "" then [] else [.fileDownload (r.filename ++ ".srt") r.srt]

/-- From the bulk module: `copyAllTranscripts()`. -/
def copyAllTranscripts (completedTranscripts : List TResult) : List Effect :=
  if completedTranscripts.length = 0 then []
  else
    [.clipboardWrite (String.intercalate ("\n")
      (mapIdxFrom 0
        (fun i t =>
          String.mk (List.replicate 60 '=') ++ "\nTRANSCRIPT #" ++ toString (i + 1)
            ++ "\nURL: " ++ t.url ++ "\n" ++ String.mk (List.replicate 60 '=')
            ++ "\n\n" ++ t.text ++ "\n\n")
        completedTranscripts))]

/-- From the bulk module: `downloadAllIndividual()` — a TXT download for
every completed transcript, an SRT download when `t.srt` is truthy,
wrapped in progress messages. -/
def downloadAllIndividual (completedTranscripts : List TResult) : List Effect :=
  if completedTranscripts.length = 0 then []
  else
    .message ("info") "Downloading individual TXT + SRT files..."
      :: (completedTranscripts.map
            (fun t =>
              .fileDownload (t.filename ++ ".txt") t.text
                :: if t.srt = "" then [] else [Effect.fileDownload (t.filename ++ ".srt") t.srt])).flatten
      ++ [.message ("success")
            ("Downloaded " ++ toString completedTranscripts.length ++ " transcript sets!")]

/-- One named entry of the generated ZIP archive. -/
structure ZipFile where
  name : String
  content : String
deriving DecidableEq

/-- The `_summary.txt` manifest written by `downloadAllZip`:
entries `"{i+1}. {url}\n   Filename: {filename}"` joined by blank
lines. -/
def zipSummary (completedTranscripts : List TResult) : String :=
  String.intercalate ("\n\n")
    (mapIdxFrom 0
      (fun i t => toString (i + 1) ++ ". " ++ t.url ++ "\n   Filename: " ++ t.filename)
      completedTranscripts)

/-- From the bulk module: `downloadAllZip()`.  Returns `none` when
`completedTranscripts` is empty (early return, no archive); otherwise
the ordered list of files added to the archive: for every transcript a
`.txt` and a `.srt` file, then the `_summary.txt` manifest. -/
def downloadAllZip (completedTranscripts : List TResult) : Option (List ZipFile) :=
  if completedTranscripts.length = 0 then none
  else
    some
      ((completedTranscripts.foldl
          (fun acc t =>
            acc ++ [⟨t.filename ++ ".txt", t.text⟩, ⟨t.filename ++ ".srt", t.srt⟩]) [])
        ++ [⟨"_summary.txt", zipSummary completedTranscripts⟩])

/-- Concatenation of a list of strings (used to state what the
`srt += ...` loop of `generateSRT` accumulates). -/
def concatStrings : List String → String
  | [] => ""
  | s :: rest => s ++ concatStrings rest

/-! ## Basic lemmas about the list and string helpers -/

theorem updateAt_length {α : Type} (l : List α) (i : Nat) (f : α → α) :
    (updateAt l i f).length = l.length := by
  induction l generalizing i with
  | nil => rfl
  | cons x xs ih =>
    cases i with
    | zero => simp [updateAt]
    | succ n => simp [updateAt, ih]

theorem get?_updateAt {α : Type} (l : List α) (i j : Nat) (f : α → α) :
    (updateAt l i f).get? j = if j = i then (l.get? j).map f else l.get? j := by
  induction l generalizing i j with
  | nil => simp [updateAt]
  | cons x xs ih =>
    cases i with
    | zero =>
      cases j with
      | zero => simp [updateAt]
      | succ m => simp [updateAt]
    | succ n =>
      cases j with
      | zero => simp [updateAt]
      | succ m => simpa [updateAt] using ih n m

theorem mapIdxFrom_length {α β : Type} (k : Nat) (f : Nat → α → β) (l : List α) :
    (mapIdxFrom k f l).length = l.length := by
  induction l generalizing k with
  | nil => rfl
  | cons x xs ih => simp [mapIdxFrom, ih]

theorem get?_mapIdxFrom {α β : Type} (k j : Nat) (f : Nat → α → β) (l : List α) :
    (mapIdxFrom k f l).get? j = (l.get? j).map (f (k + j)) := by
  induction l generalizing k j with
  | nil => simp [mapIdxFrom]
  | cons x xs ih =>
    cases j with
    | zero => simp [mapIdxFrom]
    | succ m =>
      have harith : k + 1 + m = k + (m + 1) := by omega
      simp only [mapIdxFrom, List.get?_cons_succ, ih (k + 1) m, harith]

theorem mem_mapIdxFrom {α β : Type} {k : Nat} {f : Nat → α → β} {l : List α} {b : β}
    (h : b ∈ mapIdxFrom k f l) : ∃ i x, l.get? i = some x ∧ b = f (k + i) x := by
  induction l generalizing k with
  | nil => simp [mapIdxFrom] at h
  | cons x xs ih =>
    simp only [mapIdxFrom, List.mem_cons] at h
    cases h with
    | inl h => exact ⟨0, x, rfl, by simpa using h⟩
    | inr h =>
      obtain ⟨i, y, hget, hb⟩ := ih h
      refine ⟨i + 1, y, hget, ?_⟩
      rw [show k + (i + 1) = k + 1 + i by omega]
      exact hb

theorem mem_of_mem_dropWhile {α : Type} {p : α → Bool} {a : α} :
    ∀ {l : List α}, a ∈ l.dropWhile p → a ∈ l := by
  intro l h
  induction l with
  | nil => simp at h
  | cons x xs ih =>
    rw [List.dropWhile_cons] at h
    by_cases hx : p x = true
    · rw [if_pos hx] at h
      exact List.mem_cons_of_mem _ (ih h)
    · rw [if_neg hx] at h
      exact h

theorem mem_of_mem_takeWhile {α : Type} {p : α → Bool} {a : α} :
    ∀ {l : List α}, a ∈ l.takeWhile p → a ∈ l := by
  intro l h
  induction l with
  | nil => simp at h
  | cons x xs ih =>
    rw [List.takeWhile_cons] at h
    by_cases hx : p x = true
    · rw [if_pos hx] at h
      rcases List.mem_cons.mp h with h | h
      · exact h ▸ List.mem_cons_self x xs
      · exact List.mem_cons_of_mem _ (ih h)
    · rw [if_neg hx] at h
      simp at h

theorem mem_of_mem_trimChars {a : Char} {l : List Char} (h : a ∈ trimChars l) : a ∈ l := by
  unfold trimChars at h
  rw [List.mem_reverse] at h
  have h2 : a ∈ (l.dropWhile isWsChar).reverse := mem_of_mem_dropWhile h
  rw [List.mem_reverse] at h2
  exact mem_of_mem_dropWhile h2

theorem splitOnChar_ne_nil (c : Char) (s : List Char) : splitOnChar c s ≠ [] := by
  cases s with
  | nil => simp [splitOnChar]
  | cons x xs =>
    simp only [splitOnChar]
    rcases hs : splitOnChar c xs with _ | ⟨p, ps⟩
    · simp
    · by_cases hx : x = c <;> simp [hx]

theorem splitOnChar_cons_eq (c x : Char) (xs : List Char) :
    splitOnChar c (x :: xs) =
      if x = c then [] :: splitOnChar c xs
      else (x :: (splitOnChar c xs).headD []) :: (splitOnChar c xs).tail := by
  simp only [splitOnChar]
  rcases hs : splitOnChar c xs with _ | ⟨p, ps⟩
  · exact absurd hs (splitOnChar_ne_nil c xs)
  · by_cases hx : x = c <;> simp [hx]

theorem not_mem_splitOnChar (c : Char) (s : List Char) :
    ∀ p ∈ splitOnChar c s, c ∉ p := by
  induction s with
  | nil => simp [splitOnChar]
  | cons x xs ih =>
    intro p hp
    rw [splitOnChar_cons_eq] at hp
    by_cases hx : x = c
    · rw [if_pos hx] at hp
      rcases List.mem_cons.mp hp with h | h
      · subst h; simp
      · exact ih p h
    · rw [if_neg hx] at hp
      rcases List.mem_cons.mp hp with h | h
      · subst h
        intro hmem
        rcases List.mem_cons.mp hmem with h | h
        · exact hx h.symm
        · rcases hs : splitOnChar c xs with _ | ⟨q, qs⟩
          · exact absurd hs (splitOnChar_ne_nil c xs)
          · rw [hs] at h
            exact ih q (hs ▸ List.mem_cons_self q qs) (by simpa using h)
      · rcases hs : splitOnChar c xs with _ | ⟨q, qs⟩
        · exact absurd hs (splitOnChar_ne_nil c xs)
        · rw [hs] at h
          exact ih p (hs ▸ List.mem_cons_of_mem q (by simpa using h))

theorem splitOnChar_append_no_sep (c : Char) (p t : List Char) (h : c ∉ p) :
    splitOnChar c (p ++ t) =
      (p ++ (splitOnChar c t).headD []) :: (splitOnChar c t).tail := by
  induction p with
  | nil =>
    simp only [List.nil_append]
    rcases ht : splitOnChar c t with _ | ⟨q, qs⟩
    · exact absurd ht (splitOnChar_ne_nil c t)
    · simp
  | cons a p' ih =>
    have ha : a ≠ c := fun hac => h (hac ▸ List.mem_cons_self a p')
    have h' : c ∉ p' := fun hm => h (List.mem_cons_of_mem a hm)
    rw [List.cons_append, splitOnChar_cons_eq, ih h', if_neg ha]
    simp

theorem splitOnChar_joinWith (c : Char) :
    ∀ ps : List (List Char), ps ≠ [] → (∀ p ∈ ps, c ∉ p) →
      splitOnChar c (joinWith [c] ps) = ps := by
  intro ps
  induction ps with
  | nil => intro h; exact absurd rfl h
  | cons p qs ih =>
    intro _ hmem
    cases qs with
    | nil =>
      have : splitOnChar c (p ++ []) = (p ++ (splitOnChar c ([] : List Char)).headD []) ::
          (splitOnChar c ([] : List Char)).tail :=
        splitOnChar_append_no_sep c p [] (hmem p (List.mem_cons_self p []))
      simpa [joinWith, splitOnChar] using this
    | cons q qs' =>
      have hrest : splitOnChar c (joinWith [c] (q :: qs')) = q :: qs' :=
        ih (by simp) (fun r hr => hmem r (List.mem_cons_of_mem p hr))
      have hjoin : joinWith [c] (p :: q :: qs') = p ++ (c :: joinWith [c] (q :: qs')) := by
        simp [joinWith]
      rw [hjoin,
        splitOnChar_append_no_sep c p _ (hmem p (List.mem_cons_self p _))]
      have hc : splitOnChar c (c :: joinWith [c] (q :: qs')) =
          [] :: splitOnChar c (joinWith [c] (q :: qs')) := by
        rw [splitOnChar_cons_eq, if_pos rfl]
      rw [hc, hrest]
      simp

theorem mkQueueFrom_cons (k : Nat) (u : String) (us : List String) :
    mkQueueFrom k (u :: us) = mkJob k u :: mkQueueFrom (k + 1) us := rfl

theorem mkQueueFrom_length (k : Nat) (urls : List String) :
    (mkQueueFrom k urls).length = urls.length := mapIdxFrom_length k mkJob urls

theorem updateAt_append_length {α : Type} (xs : List α) (y : α) (t : List α) (f : α → α) :
    updateAt (xs ++ y :: t) xs.length f = xs ++ f y :: t := by
  induction xs with
  | nil => rfl
  | cons a as ih => simp [updateAt, ih]

theorem get?_append_length {α : Type} (xs : List α) (y : α) (t : List α) :
    (xs ++ y :: t).get? xs.length = some y := by
  induction xs with
  | nil => rfl
  | cons a as ih => simpa using ih

/-- During a non-finished batch, the entry of `processNextInQueue` marks
exactly the job under the cursor as `'processing'`. -/
theorem stepEnter_mid (done : List Item) (u : String) (us : List String)
    (c : List TResult) (resp : Option (String × String)) (dv : Bool) :
    stepEnter (batchSt done (u :: us) c resp dv) =
      { batchSt done (u :: us) c resp dv with
        processingQueue :=
          done ++ ({ mkJob done.length u with status := .processing }
            :: mkQueueFrom (done.length + 1) us) } := by
  simp only [stepEnter, batchSt, mkQueueFrom_cons, updateAt_append_length]
  rw [if_neg (by simp only [List.length_append, List.length_cons, mkQueueFrom_length]; omega)]

/-- One full job step (mark processing, run the external calls, settle
the item, advance the cursor) maps a canonical state to the canonical
state with one more settled job. -/
theorem step_eq (done : List Item) (u : String) (us : List String) (o : FetchOutcome)
    (c : List TResult) (resp : Option (String × String)) (dv : Bool) :
    stepResume (stepEnter (batchSt done (u :: us) c resp dv)) o =
      batchSt (done ++ [finalJob done.length u o]) us (c ++ resHead done.length u o) resp dv := by
  rw [stepEnter_mid]
  cases o with
  | success text segs =>
    simp only [stepResume, get?_append_length, batchSt, mkQueueFrom_cons,
      updateAt_append_length, finalJob, mkRes, resHead, mkJob,
      List.length_append, List.length_cons, List.length_nil]
    simp [List.append_assoc]
  | failure msg =>
    simp only [stepResume, get?_append_length, batchSt, mkQueueFrom_cons,
      updateAt_append_length, finalJob, resHead, mkJob,
      List.length_append, List.length_cons, List.length_nil]
    simp [List.append_assoc]

/-- Closed form of the full sequential run: starting from a canonical
state with one outcome per remaining job, the run settles every job in
order, collects the successful results in order, and ends in the
batch-finish state with the summary message. -/
theorem runBatch_spec :
    ∀ (urls : List String) (os : List FetchOutcome) (done : List Item)
      (c : List TResult) (resp : Option (String × String)) (dv : Bool),
      os.length = urls.length →
      runBatch (batchSt done urls c resp dv) os =
        { processingQueue := done ++ finalJobs done.length urls os
          currentIndex := done.length + urls.length
          isProcessing := false
          completedTranscripts := c ++ successResults done.length urls os
          bulkResponse := some ("success",
            "Completed " ++ toString (c ++ successResults done.length urls os).length
              ++ " of " ++ toString (done ++ finalJobs done.length urls os).length
              ++ " transcriptions")
          queueSectionVisible := true
          downloadSectionVisible :=
            if 0 < (c ++ successResults done.length urls os).length then true else dv
          buttonDisabled := false } := by
  intro urls
  induction urls with
  | nil =>
    intro os done c resp dv hlen
    have hos : os = [] := List.length_eq_zero.mp (by simpa using hlen)
    subst hos
    simp [runBatch, stepEnter, finishBatch, batchSt, mkQueueFrom, mapIdxFrom,
      finalJobs, successResults]
  | cons u us ih =>
    intro os done c resp dv hlen
    cases os with
    | nil => simp at hlen
    | cons o os' =>
      have hlen' : os'.length = us.length := by simpa using hlen
      rw [show runBatch (batchSt done (u :: us) c resp dv) (o :: os') =
            runBatch (stepResume (stepEnter (batchSt done (u :: us) c resp dv)) o) os' from rfl,
        step_eq,
        ih os' (done ++ [finalJob done.length u o]) (c ++ resHead done.length u o) resp dv hlen']
      simp only [List.length_append, List.length_cons, List.length_nil, finalJobs,
        successResults, List.append_assoc, List.cons_append, List.nil_append,
        QState.mk.injEq]
      and_intros <;> first | trivial | omega

/-! ## Characterizing the states visited by a run -/

theorem runTrace_shape (s : QState) (os : List FetchOutcome) :
    ∃ rest, runTrace s os = s :: rest := by
  cases os with
  | nil => exact ⟨[stepEnter s], rfl⟩
  | cons o os' => exact ⟨_, rfl⟩

theorem jobStatus_finishBatch (s : QState) (j : Nat) :
    jobStatus (finishBatch s) j = jobStatus s j := rfl

/-- Job statuses in a canonical between-jobs state: settled part, then
all-pending part, then out of range. -/
theorem jobStatus_batchSt (done : List Item) (urls : List String) (c : List TResult)
    (resp : Option (String × String)) (dv : Bool) (j : Nat) :
    jobStatus (batchSt done urls c resp dv) j =
      if j < done.length then (done.get? j).map Item.status
      else if j < done.length + urls.length then some .pending
      else none := by
  unfold jobStatus batchSt
  by_cases hj : j < done.length
  · rw [List.get?_append hj, if_pos hj]
  · rw [List.get?_append_right (Nat.le_of_not_lt hj), if_neg hj]
    unfold mkQueueFrom
    rw [get?_mapIdxFrom]
    rcases hu : urls.get? (j - done.length) with _ | u
    · rw [List.get?_eq_none] at hu
      rw [if_neg (by omega)]
      simp
    · have hb : j - done.length < urls.length := by
        by_contra hge
        rw [List.get?_eq_none.mpr (Nat.le_of_not_lt hge)] at hu
        simp at hu
      rw [if_pos (by omega)]
      simp [hu, mkJob]

/-- Job statuses while a job's external call is in flight: settled part,
the single `'processing'` job under the cursor, the pending remainder,
then out of range. -/
theorem jobStatus_midSt (done : List Item) (u : String) (us : List String) (c : List TResult)
    (resp : Option (String × String)) (dv : Bool) (j : Nat) :
    jobStatus (stepEnter (batchSt done (u :: us) c resp dv)) j =
      if j < done.length then (done.get? j).map Item.status
      else if j = done.length then some .processing
      else if j < done.length + (us.length + 1) then some .pending
      else none := by
  rw [stepEnter_mid]
  unfold jobStatus
  by_cases hj : j < done.length
  · rw [List.get?_append hj, if_pos hj]
  · rw [List.get?_append_right (Nat.le_of_not_lt hj), if_neg hj]
    by_cases he : j = done.length
    · subst he
      simp
    · rw [if_neg he]
      obtain ⟨m, hm⟩ : ∃ m, j - done.length = m + 1 := ⟨j - done.length - 1, by omega⟩
      rw [hm, List.get?_cons_succ]
      unfold mkQueueFrom
      rw [get?_mapIdxFrom]
      rcases hu : us.get? m with _ | w
      · rw [List.get?_eq_none] at hu
        rw [if_neg (by omega)]
        simp
      · have hb : m < us.length := by
          by_contra hge
          rw [List.get?_eq_none.mpr (Nat.le_of_not_lt hge)] at hu
          simp at hu
        rw [if_pos (by omega)]
        simp [hu, mkJob]

theorem statusStep_refl_of_ne_processing {st : Status} (h : st ≠ .processing) :
    statusStep (some st) (some st) := by
  cases st <;> simp_all [statusStep, stepOk]

theorem settled_append (done : List Item) (u : String) (o : FetchOutcome)
    (h : SettledList done) : SettledList (done ++ [finalJob done.length u o]) := by
  intro it hit
  rcases List.mem_append.mp hit with h1 | h1
  · exact h it h1
  · rcases List.mem_singleton.mp h1 with rfl
    cases o <;> simp [finalJob]

/-- While a job is in flight, the unique `'processing'` slot is the one
under the cursor. -/
theorem jobStatus_midSt_processing (done : List Item) (u : String) (us : List String)
    (c : List TResult) (resp : Option (String × String)) (dv : Bool)
    (hdone : SettledList done) (j : Nat) :
    jobStatus (stepEnter (batchSt done (u :: us) c resp dv)) j = some .processing ↔
      j = done.length := by
  rw [jobStatus_midSt]
  constructor
  · intro h
    split_ifs at h with h1 h2 h3
    · rcases hget : done.get? j with _ | it
      · rw [hget] at h
        simp at h
      · rw [hget] at h
        rcases hdone it (List.get?_mem hget) with hs | hs <;> simp [hs] at h
    · exact h2
    · simp at h
  · intro h
    subst h
    rw [if_neg (by omega), if_pos rfl]

/-- In every state visited by a sequential run started from a canonical
state with a settled prefix, at most one job is `'processing'`. -/
theorem runTrace_processing_unique :
    ∀ (urls : List String) (os : List FetchOutcome) (done : List Item) (c : List TResult)
      (resp : Option (String × String)) (dv : Bool),
      os.length = urls.length → SettledList done →
      ∀ t ∈ runTrace (batchSt done urls c resp dv) os,
        ∀ j k, jobStatus t j = some .processing → jobStatus t k = some .processing → j = k := by
  have hbase : ∀ (done : List Item) (urls : List String) (c : List TResult)
      (resp : Option (String × String)) (dv : Bool), SettledList done →
      ∀ j, jobStatus (batchSt done urls c resp dv) j ≠ some Status.processing := by
    intro done urls c resp dv hdone j
    rw [jobStatus_batchSt]
    split_ifs with h1 h2
    · rcases hget : done.get? j with _ | it
      · simp
      · have := hdone it (List.get?_mem hget)
        rcases this with h | h <;> simp [h]
    · simp
    · simp
  intro urls
  induction urls with
  | nil =>
    intro os done c resp dv hlen hdone t ht j k hj hk
    have hos : os = [] := List.length_eq_zero.mp (by simpa using hlen)
    subst hos
    rcases List.mem_cons.mp ht with rfl | ht
    · exact absurd hj (hbase done [] c resp dv hdone j)
    · rcases List.mem_singleton.mp (by simpa using ht) with rfl
      rw [show stepEnter (batchSt done [] c resp dv) =
          finishBatch (batchSt done [] c resp dv) from by
        simp [stepEnter, batchSt, mkQueueFrom, mapIdxFrom]] at hj
      rw [jobStatus_finishBatch] at hj
      exact absurd hj (hbase done [] c resp dv hdone j)
  | cons u us ih =>
    intro os done c resp dv hlen hdone t ht j k hj hk
    cases os with
    | nil => simp at hlen
    | cons o os' =>
      have hlen' : os'.length = us.length := by simpa using hlen
      rcases List.mem_cons.mp ht with rfl | ht
      · exact absurd hj (hbase done (u :: us) c resp dv hdone j)
      · rcases List.mem_cons.mp ht with rfl | ht
        · rw [jobStatus_midSt_processing done u us c resp dv hdone j] at hj
          rw [jobStatus_midSt_processing done u us c resp dv hdone k] at hk
          omega
        · rw [step_eq] at ht
          exact ih os' (done ++ [finalJob done.length u o]) (c ++ resHead done.length u o)
            resp dv hlen' (settled_append done u o hdone) t ht j k hj hk

/-- Along the whole run, every job slot makes only legal transitions:
it stays `'pending'`, is promoted `'pending' → 'processing'`, settles
`'processing' → 'completed'/'failed'`, or keeps its terminal status. -/
theorem runTrace_chain_status :
    ∀ (urls : List String) (os : List FetchOutcome) (done : List Item) (c : List TResult)
      (resp : Option (String × String)) (dv : Bool),
      os.length = urls.length → SettledList done →
      List.Chain' (fun t t' => ∀ j, statusStep (jobStatus t j) (jobStatus t' j))
        (runTrace (batchSt done urls c resp dv) os) := by
  intro urls
  induction urls with
  | nil =>
    intro os done c resp dv hlen hdone
    have hos : os = [] := List.length_eq_zero.mp (by simpa using hlen)
    subst hos
    refine List.chain'_cons.mpr ⟨?_, List.chain'_singleton _⟩
    intro j
    have hq : stepEnter (batchSt done [] c resp dv) = finishBatch (batchSt done [] c resp dv) := by
      simp [stepEnter, batchSt, mkQueueFrom, mapIdxFrom]
    rw [hq, jobStatus_finishBatch, jobStatus_batchSt]
    split_ifs with h1 h2
    · rcases hget : done.get? j with _ | it
      · simp [hget, statusStep]
      · rcases hdone it (List.get?_mem hget) with hs | hs <;>
          simp [hget, hs, statusStep, stepOk]
    · simp only [List.length_nil] at h2
      omega
    · simp [statusStep]
  | cons u us ih =>
    intro os done c resp dv hlen hdone
    cases os with
    | nil => simp at hlen
    | cons o os' =>
      have hlen' : os'.length = us.length := by simpa using hlen
      obtain ⟨rest, hrest⟩ :=
        runTrace_shape (stepResume (stepEnter (batchSt done (u :: us) c resp dv)) o) os'
      rw [show runTrace (batchSt done (u :: us) c resp dv) (o :: os') =
            batchSt done (u :: us) c resp dv :: stepEnter (batchSt done (u :: us) c resp dv)
              :: runTrace (stepResume (stepEnter (batchSt done (u :: us) c resp dv)) o) os'
          from rfl]
      refine List.chain'_cons.mpr ⟨?_, ?_⟩
      · intro j
        rw [jobStatus_batchSt, jobStatus_midSt]
        split_ifs
        all_goals first
          | (exfalso; simp only [List.length_cons] at *; omega)
          | (rcases hget : done.get? j with _ | it
             · simp [hget, statusStep]
             · rcases hdone it (List.get?_mem hget) with hs | hs <;>
                 simp [hget, hs, statusStep, stepOk])
          | (simp [statusStep, stepOk])
      · rw [hrest]
        refine List.chain'_cons.mpr ⟨?_, ?_⟩
        · intro j
          rw [step_eq, jobStatus_midSt, jobStatus_batchSt]
          simp only [List.length_append, List.length_cons, List.length_nil]
          split_ifs
          all_goals first
            | (exfalso; omega)
            | (have he : j = done.length := by omega
               subst he
               rw [get?_append_length done (finalJob done.length u o) []]
               cases o <;> simp [finalJob, statusStep, stepOk])
            | (have hlt : j < done.length := by omega
               rw [List.get?_append hlt]
               rcases hget : done.get? j with _ | it
               · simp [hget, statusStep]
               · rcases hdone it (List.get?_mem hget) with hs | hs <;>
                   simp [hget, hs, statusStep, stepOk])
            | (simp [statusStep, stepOk])
        · rw [← hrest, step_eq]
          exact ih os' _ _ resp dv hlen' (settled_append done u o hdone)

/-- `processNextInQueue`'s entry never touches `completedTranscripts`. -/
theorem completed_stepEnter (s : QState) :
    (stepEnter s).completedTranscripts = s.completedTranscripts := by
  unfold stepEnter finishBatch
  split_ifs <;> rfl

/-- Along the whole run, `completedTranscripts` only ever grows by
appending, at the moment a job completes, exactly that job's result. -/
theorem runTrace_chain_completed :
    ∀ (urls : List String) (os : List FetchOutcome) (done : List Item) (c : List TResult)
      (resp : Option (String × String)) (dv : Bool),
      os.length = urls.length → SettledList done →
      List.Chain' completedStep (runTrace (batchSt done urls c resp dv) os) := by
  intro urls
  induction urls with
  | nil =>
    intro os done c resp dv hlen hdone
    have hos : os = [] := List.length_eq_zero.mp (by simpa using hlen)
    subst hos
    exact List.chain'_cons.mpr ⟨Or.inl (completed_stepEnter _), List.chain'_singleton _⟩
  | cons u us ih =>
    intro os done c resp dv hlen hdone
    cases os with
    | nil => simp at hlen
    | cons o os' =>
      have hlen' : os'.length = us.length := by simpa using hlen
      obtain ⟨rest, hrest⟩ :=
        runTrace_shape (stepResume (stepEnter (batchSt done (u :: us) c resp dv)) o) os'
      rw [show runTrace (batchSt done (u :: us) c resp dv) (o :: os') =
            batchSt done (u :: us) c resp dv :: stepEnter (batchSt done (u :: us) c resp dv)
              :: runTrace (stepResume (stepEnter (batchSt done (u :: us) c resp dv)) o) os'
          from rfl]
      refine List.chain'_cons.mpr ⟨Or.inl (completed_stepEnter _), ?_⟩
      rw [hrest]
      refine List.chain'_cons.mpr ⟨?_, ?_⟩
      · cases o with
        | failure msg =>
          refine Or.inl ?_
          rw [step_eq]
          simp [batchSt, resHead, completed_stepEnter]
        | success text segs =>
          refine Or.inr ⟨mkRes done.length u text segs, done.length, ?_, ?_, ?_, ?_⟩
          · rw [jobStatus_midSt]
            rw [if_neg (by omega), if_pos rfl]
          · rw [step_eq, jobStatus_batchSt]
            rw [if_pos (by simp [List.length_append])]
            rw [get?_append_length done _ []]
            simp [finalJob]
          · rw [step_eq]
            unfold jobResult batchSt
            rw [List.get?_append (by simp), get?_append_length done _ []]
            simp [finalJob]
          · rw [step_eq]
            simp [batchSt, resHead, completed_stepEnter]
      · rw [← hrest, step_eq]
        exact ih os' _ _ resp dv hlen' (settled_append done u o hdone)

/-! ## Final-state bookkeeping lemmas -/

theorem finalJobs_length :
    ∀ (urls : List String) (os : List FetchOutcome) (k : Nat),
      os.length = urls.length → (finalJobs k urls os).length = urls.length := by
  intro urls
  induction urls with
  | nil => intro os k _; cases os <;> simp [finalJobs]
  | cons u us ih =>
    intro os k hlen
    cases os with
    | nil => simp at hlen
    | cons o os' => simp [finalJobs, ih os' (k + 1) (by simpa using hlen)]

theorem finalJobs_get? :
    ∀ (urls : List String) (os : List FetchOutcome) (k d : Nat),
      os.length = urls.length → d < urls.length →
      ∃ u o, urls.get? d = some u ∧ os.get? d = some o ∧
        (finalJobs k urls os).get? d = some (finalJob (k + d) u o) := by
  intro urls
  induction urls with
  | nil => intro os k d _ hd; simp at hd
  | cons u us ih =>
    intro os k d hlen hd
    cases os with
    | nil => simp at hlen
    | cons o os' =>
      cases d with
      | zero => exact ⟨u, o, rfl, rfl, by simp [finalJobs]⟩
      | succ m =>
        obtain ⟨w, o2, h1, h2, h3⟩ := ih os' (k + 1) m (by simpa using hlen) (by simpa using hd)
        refine ⟨w, o2, h1, h2, ?_⟩
        simp only [finalJobs, List.get?_cons_succ]
        rw [h3, show k + 1 + m = k + (m + 1) by omega]

/-- Filtering the settled queue for completed jobs and taking their
results recovers exactly the pushed transcripts, in order. -/
theorem finalJobs_filterMap :
    ∀ (urls : List String) (os : List FetchOutcome) (k : Nat),
      os.length = urls.length →
      (finalJobs k urls os).filterMap
          (fun it => if it.status = Status.completed then it.result else none)
        = successResults k urls os := by
  intro urls
  induction urls with
  | nil => intro os k _; cases os <;> simp [finalJobs, successResults]
  | cons u us ih =>
    intro os k hlen
    cases os with
    | nil => simp at hlen
    | cons o os' =>
      have := ih os' (k + 1) (by simpa using hlen)
      cases o with
      | success text segs =>
        simp [finalJobs, successResults, resHead, finalJob, List.filterMap_cons, this]
      | failure msg =>
        simp [finalJobs, successResults, resHead, finalJob, List.filterMap_cons, this]

theorem successResults_length :
    ∀ (urls : List String) (os : List FetchOutcome) (k : Nat),
      os.length = urls.length → (successResults k urls os).length = countCompleted os := by
  intro urls
  induction urls with
  | nil =>
    intro os k hlen
    have : os = [] := List.length_eq_zero.mp (by simpa using hlen)
    subst this
    simp [successResults, countCompleted]
  | cons u us ih =>
    intro os k hlen
    cases os with
    | nil => simp at hlen
    | cons o os' =>
      have := ih os' (k + 1) (by simpa using hlen)
      cases o with
      | success text segs => simp [successResults, resHead, countCompleted, List.filter, this]
      | failure msg => simp [successResults, resHead, countCompleted, List.filter, this]

/-- Every pushed transcript comes from a successful job: its position,
source URL and filename are those of that job. -/
theorem successResults_mem :
    ∀ (urls : List String) (os : List FetchOutcome) (k : Nat) (r : TResult),
      os.length = urls.length → r ∈ successResults k urls os →
      ∃ d u text segs, urls.get? d = some u ∧ os.get? d = some (.success text segs) ∧
        r = mkRes (k + d) u text segs := by
  intro urls
  induction urls with
  | nil =>
    intro os k r hlen hr
    have : os = [] := List.length_eq_zero.mp (by simpa using hlen)
    subst this
    simp [successResults] at hr
  | cons u us ih =>
    intro os k r hlen hr
    cases os with
    | nil => simp at hlen
    | cons o os' =>
      have hlen' : os'.length = us.length := by simpa using hlen
      cases o with
      | success text segs =>
        simp only [successResults, resHead, List.cons_append, List.nil_append,
          List.mem_cons] at hr
        rcases hr with rfl | hr
        · exact ⟨0, u, text, segs, rfl, rfl, by simp⟩
        · obtain ⟨d, w, t2, g2, h1, h2, h3⟩ := ih os' (k + 1) r hlen' hr
          exact ⟨d + 1, w, t2, g2, by simpa using h1, by simpa using h2,
            by rw [h3, show k + 1 + d = k + (d + 1) by omega]⟩
      | failure msg =>
        simp only [successResults, resHead, List.nil_append] at hr
        obtain ⟨d, w, t2, g2, h1, h2, h3⟩ := ih os' (k + 1) r hlen' hr
        exact ⟨d + 1, w, t2, g2, by simpa using h1, by simpa using h2,
          by rw [h3, show k + 1 + d = k + (d + 1) by omega]⟩

/-- A successfully started bulk submission installs the canonical fresh
batch state. -/
theorem handleProcessBulk_started (input : String) (s : QState)
    (h : parseUrls input ≠ []) :
    handleProcessBulk input true s = batchSt [] (parseUrls input) [] s.bulkResponse false := by
  unfold handleProcessBulk batchSt
  rw [if_neg (by simp [List.length_eq_zero, h])]
  simp [mkQueueFrom]


/-! ## The claims -/

/-- C1: `startBatch` (`handleProcessBulk`) creates exactly one `Pending`
job per input line that survives trimming and the `'instagram.com'`
substring filter, in original line order, with ids `0..N-1` assigned
contiguously (job `j` is exactly `mkJob j` of the `j`-th surviving
line); and when no line survives, it only shows the
no-valid-URLs error message — it creates no jobs, leaves every module
variable untouched, and starts no processing. -/
theorem C1_startBatch_jobs (input : String) (hasApiKey : Bool) (prior : QState) :
    (parseUrls input = [] →
      handleProcessBulk input hasApiKey prior =
        { prior with
            bulkResponse := some ("error", "Please enter at least one valid Instagram URL") })
    ∧ (parseUrls input ≠ [] → hasApiKey = true →
        (handleProcessBulk input hasApiKey prior).processingQueue.length
            = (parseUrls input).length
        ∧ (handleProcessBulk input hasApiKey prior).isProcessing = true
        ∧ (handleProcessBulk input hasApiKey prior).currentIndex = 0
        ∧ (handleProcessBulk input hasApiKey prior).completedTranscripts = []
        ∧ ∀ j, (handleProcessBulk input hasApiKey prior).processingQueue.get? j
            = ((parseUrls input).get? j).map (fun url => mkJob j url)) := by
  constructor
  · intro h
    unfold handleProcessBulk
    rw [if_pos (by simp [h])]
  · intro h hkey
    subst hkey
    rw [handleProcessBulk_started input prior h]
    refine ⟨by simp [batchSt, mkQueueFrom_length], rfl, rfl, rfl, ?_⟩
    intro j
    show (mkQueueFrom 0 (parseUrls input)).get? j
      = ((parseUrls input).get? j).map (fun url => mkJob j url)
    rw [mkQueueFrom, get?_mapIdxFrom]
    simp

/-- Witness for C1 at a concrete four-line input: two lines survive the
filter (one trimmed, one rejected as blank, one rejected as
off-domain), two pending jobs with ids 0 and 1 are created in order,
and an all-blank input produces only the error message. -/
theorem C1_startBatch_jobs_witness :
    (parseUrls ("https://instagram.com/reel/A\n\nnotaurl\n  https://instagram.com/reel/B  ") ≠ []
      ∧ ((handleProcessBulk ("https://instagram.com/reel/A\n\nnotaurl\n  https://instagram.com/reel/B  ")
            true initState).processingQueue.length
          = (parseUrls ("https://instagram.com/reel/A\n\nnotaurl\n  https://instagram.com/reel/B  ")).length
        ∧ (handleProcessBulk ("https://instagram.com/reel/A\n\nnotaurl\n  https://instagram.com/reel/B  ")
            true initState).isProcessing = true
        ∧ (handleProcessBulk ("https://instagram.com/reel/A\n\nnotaurl\n  https://instagram.com/reel/B  ")
            true initState).currentIndex = 0
        ∧ (handleProcessBulk ("https://instagram.com/reel/A\n\nnotaurl\n  https://instagram.com/reel/B  ")
            true initState).completedTranscripts = []
        ∧ ∀ j, (handleProcessBulk ("https://instagram.com/reel/A\n\nnotaurl\n  https://instagram.com/reel/B  ")
            true initState).processingQueue.get? j
          = ((parseUrls ("https://instagram.com/reel/A\n\nnotaurl\n  https://instagram.com/reel/B  ")).get? j).map
              (fun url => mkJob j url)))
    ∧ parseUrls ("no lines here") = []
    ∧ handleProcessBulk ("no lines here") true initState =
        { initState with
            bulkResponse := some ("error", "Please enter at least one valid Instagram URL") } := by
  refine ⟨⟨by decide, ?_⟩, by decide, ?_⟩
  · exact (C1_startBatch_jobs
      ("https://instagram.com/reel/A\n\nnotaurl\n  https://instagram.com/reel/B  ")
      true initState).2 (by decide) rfl
  · exact (C1_startBatch_jobs ("no lines here") true initState).1 (by decide)

/-! ## URL normalization facts (claim C7) -/

theorem hasQuery_false_of_not_mem {s : String} (h : '?' ∉ s.data) : hasQuery s = false := by
  simp only [hasQuery, List.any_eq_false, decide_eq_true_eq]
  intro x hx hxq
  exact h (hxq ▸ hx)

theorem cleanInstagramUrl_no_query (url : String) : hasQuery (cleanInstagramUrl url) = false := by
  unfold cleanInstagramUrl
  split_ifs with h
  · subst h
    decide
  · apply hasQuery_false_of_not_mem
    intro hmem
    have := List.mem_takeWhile_imp hmem
    simp at this

theorem mem_cleanLine_subset {a : Char} {l : List Char} (h : a ∈ cleanLine l) : a ∈ l := by
  unfold cleanLine at h
  split_ifs at h with ht
  · rw [ht] at h
    simp at h
  · exact mem_of_mem_trimChars (mem_of_mem_takeWhile h)

theorem cleanLine_no_query (l : List Char) : '?' ∉ cleanLine l := by
  unfold cleanLine
  split_ifs with ht
  · rw [ht]
    simp
  · intro hmem
    have := List.mem_takeWhile_imp hmem
    simp at this

theorem splitOnChar_cleanBulkInput (input : String) :
    splitOnChar '\n' (cleanBulkInput input).data
      = (splitOnChar '\n' input.data).map cleanLine := by
  show splitOnChar '\n' (joinWith ['\n'] ((splitOnChar '\n' input.data).map cleanLine)) = _
  apply splitOnChar_joinWith
  · simp [List.map_eq_nil, splitOnChar_ne_nil]
  · intro q hq
    obtain ⟨p0, hp0, rfl⟩ := List.mem_map.mp hq
    intro hmem
    exact not_mem_splitOnChar '\n' input.data p0 hp0 (mem_cleanLine_subset hmem)

/-- Every URL surviving the bulk parser on input that went through the
textarea cleaning handler is free of question marks. -/
theorem parseUrls_cleanBulkInput_no_query (input : String) :
    ∀ u ∈ parseUrls (cleanBulkInput input), hasQuery u = false := by
  intro u hu
  unfold parseUrls at hu
  have hu1 := (List.mem_filter.mp hu).1
  obtain ⟨v, hv, rfl⟩ := List.mem_map.mp hu1
  unfold jsSplitLines at hv
  obtain ⟨p, hp, rfl⟩ := List.mem_map.mp hv
  rw [splitOnChar_cleanBulkInput] at hp
  obtain ⟨p0, hp0, rfl⟩ := List.mem_map.mp hp
  apply hasQuery_false_of_not_mem
  intro hmem
  exact cleanLine_no_query p0 (mem_of_mem_trimChars hmem)

/-- C7 counterexample: `startBatch` itself performs no query-parameter
stripping — fed a raw line carrying `?igsh=xyz`, `handleProcessBulk`
creates a job whose `sourceUrl` still contains the `'?'` and the full
query string, contradicting the claim that every Job's `sourceUrl` is
normalized regardless of the raw input string. -/
theorem C7_counterexample :
    ∃ it, (handleProcessBulk ("https://instagram.com/reel/ABC?igsh=xyz") true
        initState).processingQueue.get? 0 = some it
      ∧ hasQuery it.url = true := by
  exact ⟨mkJob 0 ("https://instagram.com/reel/ABC?igsh=xyz"), by decide, by decide⟩

/-- C7 amended: query stripping is performed by the `input`-event
cleaning handlers, not by `startBatch`.  Every URL produced by
`cleanInstagramUrl` (`flux.js`) is free of `'?'`, and every job created
by `handleProcessBulk` from a textarea value that passed the bulk
cleaning handler (`cleanBulkInput`) has a `sourceUrl` free of `'?'`;
on raw input that bypassed the handler, `startBatch` preserves the
query string (see the counterexample). -/
theorem C7_amended_normalization (input : String) (prior : QState)
    (h : parseUrls (cleanBulkInput input) ≠ []) :
    (∀ it ∈ (handleProcessBulk (cleanBulkInput input) true prior).processingQueue,
        hasQuery it.url = false)
    ∧ ∀ url, hasQuery (cleanInstagramUrl url) = false := by
  constructor
  · intro it hit
    rw [handleProcessBulk_started _ prior h] at hit
    have hit' : it ∈ mkQueueFrom 0 (parseUrls (cleanBulkInput input)) := by
      simpa [batchSt] using hit
    obtain ⟨i, u, hget, rfl⟩ := mem_mapIdxFrom hit'
    exact parseUrls_cleanBulkInput_no_query input u (List.get?_mem hget)
  · exact cleanInstagramUrl_no_query

/-- Witness for the amended C7 on a concrete tracking-parameter URL:
the cleaned input yields a nonempty batch and the created job's URL
carries no query string. -/
theorem C7_amended_normalization_witness :
    parseUrls (cleanBulkInput (" https://instagram.com/reel/ABC?igsh=xyz ")) ≠ []
    ∧ ((∀ it ∈ (handleProcessBulk (cleanBulkInput (" https://instagram.com/reel/ABC?igsh=xyz "))
          true initState).processingQueue, hasQuery it.url = false)
      ∧ ∀ url, hasQuery (cleanInstagramUrl url) = false) :=
  ⟨by decide,
    C7_amended_normalization (" https://instagram.com/reel/ABC?igsh=xyz ") initState (by decide)⟩

/-! ## Subtitle formatter facts (claim C8) -/

theorem empty_append_string (s : String) : "" ++ s = s :=
  String.ext (by rw [String.data_append]; rfl)

theorem srtAux_eq (segs : List Segment) : ∀ (k : Nat) (acc : String),
    srtAux k acc segs = acc ++ concatStrings (mapIdxFrom k srtBlock segs) := by
  induction segs with
  | nil =>
    intro k acc
    simp only [srtAux, mapIdxFrom, concatStrings, String.append_empty]
  | cons seg rest ih =>
    intro k acc
    simp only [srtAux, mapIdxFrom, concatStrings]
    rw [ih (k + 1), String.append_assoc]

/-- C8: the subtitle formatter returns the empty string on a missing or
empty segment list; otherwise it emits, for the segments in order, the
1-based index, the `start --> end` timestamp line in zero-padded
`HH:MM:SS,mmm` form, and the trimmed text followed by a blank line —
the whole output being the in-order concatenation of the per-segment
blocks with 1-based numbering.  On `[{start: 0, end: 1.5, text: " hi "}]`
it returns exactly `"1\n00:00:00,000 --> 00:00:01,500\nhi\n\n"`, and
sub-millisecond fractions are truncated, not rounded
(`1.5999` seconds renders as `00:00:01,599`). -/
theorem C8_generateSRT :
    generateSRT none = ""
    ∧ generateSRT (some []) = ""
    ∧ (∀ segs : List Segment,
        generateSRT (some segs) = concatStrings (mapIdxFrom 0 srtBlock segs))
    ∧ generateSRT (some [⟨0, 3/2, " hi "⟩]) = "1\n00:00:00,000 --> 00:00:01,500\nhi\n\n"
    ∧ formatSRTTime (15999/10000) = "00:00:01,599" := by
  refine ⟨rfl, rfl, ?_, ?_, ?_⟩
  · intro segs
    cases segs with
    | nil => rfl
    | cons seg rest =>
      show generateSRTList (seg :: rest) = _
      unfold generateSRTList
      rw [if_neg (by simp)]
      rw [srtAux_eq (seg :: rest) 0 (""), empty_append_string]
  · with_unfolding_all decide
  · with_unfolding_all decide

/-! ## The invalid-credential path (claim C3) -/

/-- C3 (evaluation of the code at the failing input): on HTTP 401 the
error handler produces the invalid-credential message and the job fails
with it, and subsequent jobs in the batch still attempt processing —
but the stored credential is NOT cleared: the guard
`if (Settings && Settings.clearApiKey)` tests a property that the
public `Settings` object of `tabs.js` never exports, so
`localStorage.removeItem('openai_api_key')` is unreachable and
`handleApiError` returns the store unchanged, contradicting the claim's
(and the source comment's) stated side effect. -/
theorem C3_invalid_credential_not_cleared :
    settingsHasClearApiKey = false
    ∧ (∀ (parsedMsg : Option String) (store : Option String),
        handleApiError 401 parsedMsg store =
          ("Invalid API key. Please check your settings.", store))
    ∧ jobStatus (runBatch (handleProcessBulk
          ("https://instagram.com/reel/a\nhttps://instagram.com/reel/b") true initState)
          [.failure ("Invalid API key. Please check your settings."),
           .failure ("Invalid API key. Please check your settings.")]) 0 = some .failed
    ∧ jobError (runBatch (handleProcessBulk
          ("https://instagram.com/reel/a\nhttps://instagram.com/reel/b") true initState)
          [.failure ("Invalid API key. Please check your settings."),
           .failure ("Invalid API key. Please check your settings.")]) 0
        = some ("Invalid API key. Please check your settings.")
    ∧ jobStatus (runBatch (handleProcessBulk
          ("https://instagram.com/reel/a\nhttps://instagram.com/reel/b") true initState)
          [.failure ("Invalid API key. Please check your settings."),
           .failure ("Invalid API key. Please check your settings.")]) 1 = some .failed := by
  refine ⟨by decide, ?_, by decide, by decide, by decide⟩
  intro parsedMsg store
  simp [handleApiError, settingsHasClearApiKey, settingsPublicApi]

/-! ## Stale in-flight continuations after `clear()` (claim C2) -/

/-- C2 counterexample: concrete execution in which a one-job batch is
started, its external call is left in flight, `handleClear` discards
the batch — and when the stale call then resolves successfully, its
continuation pushes the stale result into the *current* (cleared)
batch's `completedTranscripts`, advances the *current* cursor, and the
`processNextInQueue` iteration it schedules fires a phantom
batch-summary UI message (`"Completed 1 of 0 transcriptions"`) over the
cleared batch.  No generation guard exists, refuting the claim that a
stale response never mutates current state and never issues UI
updates. -/
theorem C2_counterexample :
    (handleClear (stepEnter (handleProcessBulk ("https://instagram.com/reel/one") true
        initState))).completedTranscripts = []
    ∧ (handleClear (stepEnter (handleProcessBulk ("https://instagram.com/reel/one") true
        initState))).bulkResponse = none
    ∧ (stepResumeStale (handleClear (stepEnter (handleProcessBulk
          ("https://instagram.com/reel/one") true initState)))
        ⟨0, "https://instagram.com/reel/one", .processing, none, none⟩
        (.success ("hello") none)).completedTranscripts
      = [⟨"hello", "", "https://instagram.com/reel/one", "transcript_1"⟩]
    ∧ (stepResumeStale (handleClear (stepEnter (handleProcessBulk
          ("https://instagram.com/reel/one") true initState)))
        ⟨0, "https://instagram.com/reel/one", .processing, none, none⟩
        (.success ("hello") none)).currentIndex = 1
    ∧ (stepEnter (stepResumeStale (handleClear (stepEnter (handleProcessBulk
          ("https://instagram.com/reel/one") true initState)))
        ⟨0, "https://instagram.com/reel/one", .processing, none, none⟩
        (.success ("hello") none))).bulkResponse
      = some ("success", "Completed 1 of 0 transcriptions") := by
  refine ⟨by decide, by decide, by decide, by decide, by decide⟩

/-- C2 amended: the implementation has no staleness guard.  When the
continuation of an abandoned job resolves after `clear()`, it appends
its result (built from the stale item's URL and the *current* cursor)
to the current `completedTranscripts`, increments the current cursor,
and the iteration it schedules runs against the current state — over a
cleared batch it emits the batch-summary message computed from the
stale push. -/
theorem C2_amended_no_stale_guard (s : QState) (staleItem : Item) :
    (∀ text segs,
        (stepResumeStale s staleItem (.success text segs)).completedTranscripts
            = s.completedTranscripts
              ++ [⟨text, generateSRT segs, staleItem.url,
                    "transcript_" ++ toString (s.currentIndex + 1)⟩]
        ∧ (stepResumeStale s staleItem (.success text segs)).currentIndex
            = s.currentIndex + 1)
    ∧ (∀ msg, (stepResumeStale s staleItem (.failure msg)).currentIndex
        = s.currentIndex + 1)
    ∧ (∀ text segs,
        (stepEnter (stepResumeStale (handleClear s) staleItem
            (.success text segs))).bulkResponse
          = some ("success", "Completed 1 of 0 transcriptions")) := by
  exact ⟨fun text segs => ⟨rfl, rfl⟩, fun msg => rfl,
    fun text segs => by with_unfolding_all rfl⟩

/-! ## Guarded export operations (claim C10) -/

/-- C10: every per-item export (`copyItem`, `downloadTxt`,
`downloadSrt`) invoked with an index whose job does not exist or whose
result is absent returns without any effect (the source functions
contain no state assignment at all, which the embedding reflects by
typing them as pure effect producers); and every aggregate export
(`copyAll`, `downloadAll`, `downloadZip`) invoked on an empty
`completedTranscripts` returns immediately with no effect. -/
theorem C10_export_guards (s : QState) (i : Nat) :
    ((s.processingQueue.get? i = none ∨
        ∃ it, s.processingQueue.get? i = some it ∧ it.result = none) →
      copyItem s i = [] ∧ downloadTxt s i = [] ∧ downloadSrt s i = [])
    ∧ copyAllTranscripts [] = []
    ∧ downloadAllIndividual [] = []
    ∧ downloadAllZip [] = none := by
  refine ⟨?_, rfl, rfl, rfl⟩
  intro h
  rcases h with h | ⟨it, hit, hres⟩
  · simp only [copyItem, downloadTxt, downloadSrt, h]
    exact ⟨trivial, trivial, trivial⟩
  · simp only [copyItem, downloadTxt, downloadSrt, hit, hres]
    exact ⟨trivial, trivial, trivial⟩

/-- Witness for C10 on the freshly initialized module: index 0 names no
job, and all six export operations do nothing. -/
theorem C10_export_guards_witness :
    (initState.processingQueue.get? 0 = none ∨
        ∃ it, initState.processingQueue.get? 0 = some it ∧ it.result = none)
    ∧ (copyItem initState 0 = [] ∧ downloadTxt initState 0 = [] ∧ downloadSrt initState 0 = [])
    ∧ copyAllTranscripts [] = []
    ∧ downloadAllIndividual [] = []
    ∧ downloadAllZip [] = none :=
  ⟨Or.inl rfl, (C10_export_guards initState 0).1 (Or.inl rfl), rfl, rfl, rfl⟩

/-! ## Queue invariants over a full run (claim C4) -/

/-- C4: in every reachable state of a running batch at most one job is
`'processing'`; every job starts `'pending'`; across every step each
job slot makes only the legal transitions `pending → pending`,
`pending → processing`, `processing → completed/failed`, or keeps its
terminal status (so `Processing` is never re-entered and terminal
states are never left); and at batch end every job is terminal — hence
each job passes `Pending → Processing → {Completed | Failed}` exactly
once. -/
theorem C4_job_lifecycle (input : String) (prior : QState) (os : List FetchOutcome)
    (hne : parseUrls input ≠ []) (hlen : os.length = (parseUrls input).length) :
    (∀ t ∈ runTrace (handleProcessBulk input true prior) os,
        ∀ j k, jobStatus t j = some .processing → jobStatus t k = some .processing → j = k)
    ∧ List.Chain' (fun t t2 => ∀ j, statusStep (jobStatus t j) (jobStatus t2 j))
        (runTrace (handleProcessBulk input true prior) os)
    ∧ (∀ j, jobStatus (handleProcessBulk input true prior) j = some .pending
          ∨ jobStatus (handleProcessBulk input true prior) j = none)
    ∧ (∀ j, j < (parseUrls input).length →
        jobStatus (runBatch (handleProcessBulk input true prior) os) j = some .completed
          ∨ jobStatus (runBatch (handleProcessBulk input true prior) os) j = some .failed) := by
  have hsettled : SettledList [] := fun it hit => absurd hit (List.not_mem_nil it)
  rw [handleProcessBulk_started input prior hne]
  refine ⟨runTrace_processing_unique (parseUrls input) os [] [] prior.bulkResponse false
      hlen hsettled,
    runTrace_chain_status (parseUrls input) os [] [] prior.bulkResponse false hlen hsettled,
    ?_, ?_⟩
  · intro j
    rw [jobStatus_batchSt]
    split_ifs with h1 h2
    · simp at h1
    · exact Or.inl rfl
    · exact Or.inr rfl
  · intro j hj
    rw [runBatch_spec (parseUrls input) os [] [] prior.bulkResponse false hlen]
    obtain ⟨u, o, h1, h2, h3⟩ := finalJobs_get? (parseUrls input) os 0 j hlen hj
    unfold jobStatus
    dsimp only
    simp only [List.nil_append, List.length_nil]
    rw [h3]
    cases o <;> simp [finalJob]

/-- Witness for C4 on a two-job batch whose first job succeeds and
second fails. -/
theorem C4_job_lifecycle_witness :
    parseUrls ("https://instagram.com/a\nhttps://instagram.com/b") ≠ []
    ∧ ([FetchOutcome.success ("t") none, FetchOutcome.failure ("err")] : List FetchOutcome).length
        = (parseUrls ("https://instagram.com/a\nhttps://instagram.com/b")).length
    ∧ ((∀ t ∈ runTrace (handleProcessBulk ("https://instagram.com/a\nhttps://instagram.com/b")
            true initState) [FetchOutcome.success ("t") none, FetchOutcome.failure ("err")],
          ∀ j k, jobStatus t j = some .processing → jobStatus t k = some .processing → j = k)
      ∧ List.Chain' (fun t t2 => ∀ j, statusStep (jobStatus t j) (jobStatus t2 j))
          (runTrace (handleProcessBulk ("https://instagram.com/a\nhttps://instagram.com/b")
            true initState) [FetchOutcome.success ("t") none, FetchOutcome.failure ("err")])
      ∧ (∀ j, jobStatus (handleProcessBulk ("https://instagram.com/a\nhttps://instagram.com/b")
            true initState) j = some .pending
          ∨ jobStatus (handleProcessBulk ("https://instagram.com/a\nhttps://instagram.com/b")
            true initState) j = none)
      ∧ (∀ j, j < (parseUrls ("https://instagram.com/a\nhttps://instagram.com/b")).length →
          jobStatus (runBatch (handleProcessBulk ("https://instagram.com/a\nhttps://instagram.com/b")
              true initState) [FetchOutcome.success ("t") none, FetchOutcome.failure ("err")]) j
            = some .completed
          ∨ jobStatus (runBatch (handleProcessBulk ("https://instagram.com/a\nhttps://instagram.com/b")
              true initState) [FetchOutcome.success ("t") none, FetchOutcome.failure ("err")]) j
            = some .failed)) :=
  ⟨by decide, by decide,
    C4_job_lifecycle ("https://instagram.com/a\nhttps://instagram.com/b") initState
      [FetchOutcome.success ("t") none, FetchOutcome.failure ("err")] (by decide) (by decide)⟩

/-! ## Completed results order (claim C5) -/

/-- C5: at the end of a full batch run, `completedTranscripts` equals
the input-(id-)ordered queue restricted to the jobs that ended
`'completed'`, mapped to their results; and along the run,
`completedTranscripts` changes only by appending — at the moment a job
completes — exactly that job's result. -/
theorem C5_completed_results (input : String) (prior : QState) (os : List FetchOutcome)
    (hne : parseUrls input ≠ []) (hlen : os.length = (parseUrls input).length) :
    (runBatch (handleProcessBulk input true prior) os).completedTranscripts
      = (runBatch (handleProcessBulk input true prior) os).processingQueue.filterMap
          (fun it => if it.status = Status.completed then it.result else none)
    ∧ List.Chain' completedStep (runTrace (handleProcessBulk input true prior) os) := by
  have hsettled : SettledList [] := fun it hit => absurd hit (List.not_mem_nil it)
  rw [handleProcessBulk_started input prior hne]
  refine ⟨?_, runTrace_chain_completed (parseUrls input) os [] [] prior.bulkResponse false
    hlen hsettled⟩
  rw [runBatch_spec (parseUrls input) os [] [] prior.bulkResponse false hlen]
  dsimp only
  simp only [List.nil_append, List.length_nil]
  exact (finalJobs_filterMap (parseUrls input) os 0 hlen).symm

/-- Witness for C5 on a three-job batch whose middle job fails. -/
theorem C5_completed_results_witness :
    parseUrls ("https://instagram.com/1\nhttps://instagram.com/2\nhttps://instagram.com/3") ≠ []
    ∧ ([FetchOutcome.success ("ta") none, FetchOutcome.failure ("boom"),
        FetchOutcome.success ("tc") none] : List FetchOutcome).length
      = (parseUrls ("https://instagram.com/1\nhttps://instagram.com/2\nhttps://instagram.com/3")).length
    ∧ ((runBatch (handleProcessBulk
          ("https://instagram.com/1\nhttps://instagram.com/2\nhttps://instagram.com/3") true initState)
          [FetchOutcome.success ("ta") none, FetchOutcome.failure ("boom"),
            FetchOutcome.success ("tc") none]).completedTranscripts
        = (runBatch (handleProcessBulk
            ("https://instagram.com/1\nhttps://instagram.com/2\nhttps://instagram.com/3") true initState)
            [FetchOutcome.success ("ta") none, FetchOutcome.failure ("boom"),
              FetchOutcome.success ("tc") none]).processingQueue.filterMap
            (fun it => if it.status = Status.completed then it.result else none)
      ∧ List.Chain' completedStep (runTrace (handleProcessBulk
          ("https://instagram.com/1\nhttps://instagram.com/2\nhttps://instagram.com/3") true initState)
          [FetchOutcome.success ("ta") none, FetchOutcome.failure ("boom"),
            FetchOutcome.success ("tc") none])) :=
  ⟨by decide, by decide,
    C5_completed_results
      ("https://instagram.com/1\nhttps://instagram.com/2\nhttps://instagram.com/3") initState
      [FetchOutcome.success ("ta") none, FetchOutcome.failure ("boom"),
        FetchOutcome.success ("tc") none] (by decide) (by decide)⟩

/-! ## Per-job failure containment and the batch summary (claim C6) -/

/-- C6: per-job failures are fully contained — each job's final status
is determined by its own outcome alone (`success → completed`,
`failure → failed`, with the failure message recorded on that job), and
the batch always runs every job and ends with the summary message
carrying the number of completed jobs and the batch size. -/
theorem C6_failure_containment (input : String) (prior : QState) (os : List FetchOutcome)
    (hne : parseUrls input ≠ []) (hlen : os.length = (parseUrls input).length) :
    (∀ j o, os.get? j = some o →
        jobStatus (runBatch (handleProcessBulk input true prior) os) j
          = some (outcomeStatus o))
    ∧ (∀ j msg, os.get? j = some (.failure msg) →
        jobError (runBatch (handleProcessBulk input true prior) os) j = some msg)
    ∧ (runBatch (handleProcessBulk input true prior) os).bulkResponse
        = some ("success", "Completed " ++ toString (countCompleted os) ++ " of "
            ++ toString os.length ++ " transcriptions") := by
  have hbound : ∀ j (o : FetchOutcome), os.get? j = some o → j < (parseUrls input).length := by
    intro j o ho
    by_contra hge
    rw [List.get?_eq_none.mpr (by omega : os.length ≤ j)] at ho
    simp at ho
  rw [handleProcessBulk_started input prior hne]
  rw [runBatch_spec (parseUrls input) os [] [] prior.bulkResponse false hlen]
  refine ⟨?_, ?_, ?_⟩
  · intro j o ho
    obtain ⟨u, o2, h1, h2, h3⟩ := finalJobs_get? (parseUrls input) os 0 j hlen (hbound j o ho)
    rw [ho] at h2
    have ho2 : o2 = o := (Option.some.inj h2).symm
    subst ho2
    unfold jobStatus
    dsimp only
    simp only [List.nil_append, List.length_nil]
    rw [h3]
    cases o2 <;> simp [finalJob, outcomeStatus]
  · intro j msg ho
    obtain ⟨u, o2, h1, h2, h3⟩ := finalJobs_get? (parseUrls input) os 0 j hlen
      (hbound j (.failure msg) ho)
    rw [ho] at h2
    have ho2 : o2 = FetchOutcome.failure msg := (Option.some.inj h2).symm
    subst ho2
    unfold jobError
    dsimp only
    simp only [List.nil_append, List.length_nil]
    rw [h3]
    simp [finalJob]
  · dsimp only
    simp only [List.nil_append, List.length_nil]
    rw [successResults_length (parseUrls input) os 0 hlen,
      finalJobs_length (parseUrls input) os 0 hlen, ← hlen]

/-- Witness for C6: the claim's concrete scenario — a batch of three
URLs whose second job's resolution fails ends `[Completed, Failed,
Completed]` with summary message `"Completed 2 of 3 transcriptions"`. -/
theorem C6_failure_containment_witness :
    parseUrls ("https://instagram.com/x\nhttps://instagram.com/y\nhttps://instagram.com/z") ≠ []
    ∧ ([FetchOutcome.success ("tx") none,
        FetchOutcome.failure ("Failed to fetch video information"),
        FetchOutcome.success ("tz") none] : List FetchOutcome).length
      = (parseUrls ("https://instagram.com/x\nhttps://instagram.com/y\nhttps://instagram.com/z")).length
    ∧ jobStatus (runBatch (handleProcessBulk
        ("https://instagram.com/x\nhttps://instagram.com/y\nhttps://instagram.com/z") true initState)
        [FetchOutcome.success ("tx") none,
          FetchOutcome.failure ("Failed to fetch video information"),
          FetchOutcome.success ("tz") none]) 0 = some .completed
    ∧ jobStatus (runBatch (handleProcessBulk
        ("https://instagram.com/x\nhttps://instagram.com/y\nhttps://instagram.com/z") true initState)
        [FetchOutcome.success ("tx") none,
          FetchOutcome.failure ("Failed to fetch video information"),
          FetchOutcome.success ("tz") none]) 1 = some .failed
    ∧ jobStatus (runBatch (handleProcessBulk
        ("https://instagram.com/x\nhttps://instagram.com/y\nhttps://instagram.com/z") true initState)
        [FetchOutcome.success ("tx") none,
          FetchOutcome.failure ("Failed to fetch video information"),
          FetchOutcome.success ("tz") none]) 2 = some .completed
    ∧ (runBatch (handleProcessBulk
        ("https://instagram.com/x\nhttps://instagram.com/y\nhttps://instagram.com/z") true initState)
        [FetchOutcome.success ("tx") none,
          FetchOutcome.failure ("Failed to fetch video information"),
          FetchOutcome.success ("tz") none]).bulkResponse
      = some ("success", "Completed " ++ toString (countCompleted
          [FetchOutcome.success ("tx") none,
            FetchOutcome.failure ("Failed to fetch video information"),
            FetchOutcome.success ("tz") none]) ++ " of "
          ++ toString ([FetchOutcome.success ("tx") none,
              FetchOutcome.failure ("Failed to fetch video information"),
              FetchOutcome.success ("tz") none] : List FetchOutcome).length
          ++ " transcriptions")
    ∧ (runBatch (handleProcessBulk
        ("https://instagram.com/x\nhttps://instagram.com/y\nhttps://instagram.com/z") true initState)
        [FetchOutcome.success ("tx") none,
          FetchOutcome.failure ("Failed to fetch video information"),
          FetchOutcome.success ("tz") none]).bulkResponse
      = some ("success", "Completed 2 of 3 transcriptions") := by
  have hmain := C6_failure_containment
    ("https://instagram.com/x\nhttps://instagram.com/y\nhttps://instagram.com/z") initState
    [FetchOutcome.success ("tx") none,
      FetchOutcome.failure ("Failed to fetch video information"),
      FetchOutcome.success ("tz") none] (by decide) (by decide)
  refine ⟨by decide, by decide, ?_, ?_, ?_, hmain.2.2, by decide⟩
  · exact hmain.1 0 (FetchOutcome.success ("tx") none) rfl
  · exact hmain.1 1 (FetchOutcome.failure ("Failed to fetch video information")) rfl
  · exact hmain.1 2 (FetchOutcome.success ("tz") none) rfl

/-! ## The aggregate ZIP export (claim C9) -/

theorem zip_foldl_append (c : List TResult) :
    ∀ acc : List ZipFile,
      List.foldl (fun acc t =>
          acc ++ [⟨t.filename ++ ".txt", t.text⟩, ⟨t.filename ++ ".srt", t.srt⟩]) acc c
        = acc ++ (c.map (fun t =>
            ([⟨t.filename ++ ".txt", t.text⟩, ⟨t.filename ++ ".srt", t.srt⟩] : List ZipFile))).flatten := by
  induction c with
  | nil => intro acc; simp
  | cons t rest ih =>
    intro acc
    simp only [List.foldl_cons, List.map_cons, List.flatten_cons, ih]
    simp [List.append_assoc]

theorem flatten_pairs_length (c : List TResult) :
    ((c.map (fun t =>
        ([⟨t.filename ++ ".txt", t.text⟩, ⟨t.filename ++ ".srt", t.srt⟩] : List ZipFile))).flatten).length
      = 2 * c.length := by
  induction c with
  | nil => simp
  | cons t rest ih =>
    simp only [List.map_cons, List.flatten_cons, List.length_append, List.length_cons, ih]
    simp
    omega

theorem flatten_pairs_get? (c : List TResult) :
    ∀ i t, c.get? i = some t →
      ((c.map (fun t =>
          ([⟨t.filename ++ ".txt", t.text⟩, ⟨t.filename ++ ".srt", t.srt⟩] : List ZipFile))).flatten).get? (2 * i)
          = some ⟨t.filename ++ ".txt", t.text⟩
      ∧ ((c.map (fun t =>
          ([⟨t.filename ++ ".txt", t.text⟩, ⟨t.filename ++ ".srt", t.srt⟩] : List ZipFile))).flatten).get? (2 * i + 1)
          = some ⟨t.filename ++ ".srt", t.srt⟩ := by
  induction c with
  | nil => intro i t h; simp at h
  | cons x rest ih =>
    intro i t h
    cases i with
    | zero =>
      rw [List.get?_cons_zero] at h
      have hx : x = t := Option.some.inj h
      subst hx
      constructor <;> rfl
    | succ m =>
      have hih := ih m t (by simpa using h)
      constructor
      · rw [show 2 * (m + 1) = 2 * m + 1 + 1 by omega]
        simpa using hih.1
      · rw [show 2 * (m + 1) + 1 = (2 * m + 1) + 1 + 1 by omega]
        simpa using hih.2

theorem downloadAllZip_eq (c : List TResult) (h : c ≠ []) :
    downloadAllZip c
      = some ((c.map (fun t =>
          ([⟨t.filename ++ ".txt", t.text⟩, ⟨t.filename ++ ".srt", t.srt⟩] : List ZipFile))).flatten
          ++ [⟨"_summary.txt", zipSummary c⟩]) := by
  unfold downloadAllZip
  rw [if_neg (by simp [List.length_eq_zero, h])]
  rw [zip_foldl_append c []]
  simp

/-- C9: on a nonempty `completedTranscripts`, `downloadAllZip` builds
one archive holding, for every result in completion order, a `.txt` and
a `.srt` file named by its `exportBaseName` (the entries at positions
`2i` and `2i+1`), plus one final `_summary.txt` manifest listing
`"{i+1}. {sourceUrl}\n   Filename: {exportBaseName}"` per entry
(`zipSummary`); and every result in the archive came from a completed
job whose id `j` satisfies `exportBaseName = "transcript_" + (j + 1)`
and whose `sourceUrl` is the manifest's URL. -/
theorem C9_zip_archive (input : String) (prior : QState) (os : List FetchOutcome)
    (hne : parseUrls input ≠ []) (hlen : os.length = (parseUrls input).length)
    (hcomp : (runBatch (handleProcessBulk input true prior) os).completedTranscripts ≠ []) :
    (∃ files,
      downloadAllZip (runBatch (handleProcessBulk input true prior) os).completedTranscripts
          = some files
      ∧ files.length
          = 2 * (runBatch (handleProcessBulk input true prior) os).completedTranscripts.length + 1
      ∧ (∀ i t,
          (runBatch (handleProcessBulk input true prior) os).completedTranscripts.get? i = some t →
          files.get? (2 * i) = some ⟨t.filename ++ ".txt", t.text⟩
          ∧ files.get? (2 * i + 1) = some ⟨t.filename ++ ".srt", t.srt⟩)
      ∧ files.get?
            (2 * (runBatch (handleProcessBulk input true prior) os).completedTranscripts.length)
          = some ⟨"_summary.txt",
              zipSummary (runBatch (handleProcessBulk input true prior) os).completedTranscripts⟩)
    ∧ (∀ r ∈ (runBatch (handleProcessBulk input true prior) os).completedTranscripts,
        ∃ j it,
          (runBatch (handleProcessBulk input true prior) os).processingQueue.get? j = some it
          ∧ it.id = j ∧ it.status = .completed ∧ it.result = some r
          ∧ r.filename = "transcript_" ++ toString (j + 1)
          ∧ r.url = it.url) := by
  constructor
  · refine ⟨_, downloadAllZip_eq _ hcomp, ?_, ?_, ?_⟩
    · rw [List.length_append, flatten_pairs_length]
      simp
    · intro i t hget
      have hi : i < (runBatch (handleProcessBulk input true prior) os).completedTranscripts.length := by
        by_contra hge
        rw [List.get?_eq_none.mpr (by omega)] at hget
        simp at hget
      have hpair := flatten_pairs_get?
        (runBatch (handleProcessBulk input true prior) os).completedTranscripts i t hget
      constructor
      · rw [List.get?_append (by rw [flatten_pairs_length]; omega)]
        exact hpair.1
      · rw [List.get?_append (by rw [flatten_pairs_length]; omega)]
        exact hpair.2
    · rw [List.get?_append_right (by rw [flatten_pairs_length]; try omega)]
      rw [flatten_pairs_length]
      simp
  · intro r hr
    rw [handleProcessBulk_started input prior hne,
      runBatch_spec (parseUrls input) os [] [] prior.bulkResponse false hlen] at hr ⊢
    dsimp only at hr ⊢
    simp only [List.nil_append, List.length_nil] at hr ⊢
    obtain ⟨d, u, text, segs, h1, h2, h3⟩ :=
      successResults_mem (parseUrls input) os 0 r hlen hr
    have hd : d < (parseUrls input).length := by
      by_contra hge
      rw [List.get?_eq_none.mpr (by omega)] at h1
      simp at h1
    obtain ⟨u2, o2, g1, g2, g3⟩ := finalJobs_get? (parseUrls input) os 0 d hlen hd
    rw [h1] at g1
    have hu : u2 = u := (Option.some.inj g1).symm
    subst hu
    rw [h2] at g2
    have ho : o2 = FetchOutcome.success text segs := (Option.some.inj g2).symm
    subst ho
    refine ⟨d, finalJob (0 + d) u2 (.success text segs), g3, ?_, ?_, ?_, ?_, ?_⟩
    · simp [finalJob]
    · simp [finalJob]
    · simp [finalJob, h3]
    · rw [h3]
      simp [mkRes]
    · rw [h3]
      simp [mkRes, finalJob]

/-- Witness for C9 on a one-job batch that completes: the archive is
`[transcript_1.txt, transcript_1.srt, _summary.txt]` and the result is
tied to job 0. -/
theorem C9_zip_archive_witness :
    parseUrls ("https://instagram.com/w") ≠ []
    ∧ ([FetchOutcome.success ("t") none] : List FetchOutcome).length
        = (parseUrls ("https://instagram.com/w")).length
    ∧ (runBatch (handleProcessBulk ("https://instagram.com/w") true initState)
        [FetchOutcome.success ("t") none]).completedTranscripts ≠ []
    ∧ ((∃ files,
        downloadAllZip (runBatch (handleProcessBulk ("https://instagram.com/w") true initState)
            [FetchOutcome.success ("t") none]).completedTranscripts
            = some files
        ∧ files.length
            = 2 * (runBatch (handleProcessBulk ("https://instagram.com/w") true initState)
                [FetchOutcome.success ("t") none]).completedTranscripts.length + 1
        ∧ (∀ i t,
            (runBatch (handleProcessBulk ("https://instagram.com/w") true initState)
              [FetchOutcome.success ("t") none]).completedTranscripts.get? i = some t →
            files.get? (2 * i) = some ⟨t.filename ++ ".txt", t.text⟩
            ∧ files.get? (2 * i + 1) = some ⟨t.filename ++ ".srt", t.srt⟩)
        ∧ files.get?
              (2 * (runBatch (handleProcessBulk ("https://instagram.com/w") true initState)
                  [FetchOutcome.success ("t") none]).completedTranscripts.length)
            = some ⟨"_summary.txt",
                zipSummary (runBatch (handleProcessBulk ("https://instagram.com/w") true initState)
                  [FetchOutcome.success ("t") none]).completedTranscripts⟩)
      ∧ (∀ r ∈ (runBatch (handleProcessBulk ("https://instagram.com/w") true initState)
            [FetchOutcome.success ("t") none]).completedTranscripts,
          ∃ j it,
            (runBatch (handleProcessBulk ("https://instagram.com/w") true initState)
                [FetchOutcome.success ("t") none]).processingQueue.get? j = some it
            ∧ it.id = j ∧ it.status = .completed ∧ it.result = some r
            ∧ r.filename = "transcript_" ++ toString (j + 1)
            ∧ r.url = it.url)) :=
  ⟨by decide, by decide, by decide,
    C9_zip_archive ("https://instagram.com/w") initState [FetchOutcome.success ("t") none]
      (by decide) (by decide) (by decide)⟩
